import Mathlib

/-!
Verification of the loc-graph action (scripts/loc_graph.py) against its
natural-language specification.  The Python source is shallowly embedded:
pure numeric helpers become Lean functions, the stateful main loop becomes
an explicit state-passing function over an environment that models the
external git and cloc tools, and file writes become an event trace.

Floating-point notes.  Python evaluates the expressions `ymax * 0.8`,
`ymax * 1.1 + 1` and `n / 1000` in IEEE binary64.  The comparison
`max_val > ymax * 0.8` and the comparisons performed by
`nice_round(ymax * 1.1 + 1)` agree with exact rational arithmetic at every
reachable argument (integer `max_val`, and `ymax` a nice number produced by
`nice_round`): the binary64 rounding error there is far smaller than the
distance to the nearest integer threshold, and the one tie that occurs
(`10 * 1.1`, exactly halfway between adjacent doubles) resolves to the
exact value `11.0` by round-half-even.  The embedding therefore uses exact
rationals for those expressions.  For `format_number`, where
`f"{n/1000:.1f}"` genuinely depends on the binary64 value of `n / 1000`,
the binary64 rounding step itself is modelled exactly (`float53M` below)
rather than approximated.
-/

/-- One record of the persisted history cache: commit sha, ISO-8601
timestamp string, and the measured line count. -/
structure HistoryEntry where
  sha : String
  date : String
  loc : Nat
deriving DecidableEq

/-- Fuel-based helper for digitCount; the fuel dominates the argument, so
the recursion is structural and kernel-reducible. -/
def digitCountAux : ℕ → ℕ → ℕ
  | 0, _ => 1
  | fuel + 1, m => if m < 10 then 1 else digitCountAux fuel (m / 10) + 1

/-- Embeds the Python expression `len(str(int(n)))` for a non-negative
integer argument: the number of decimal digits (1 for 0). -/
def digitCount (m : ℕ) : ℕ := digitCountAux m m

lemma digitCountAux_eq_log (fuel m : ℕ) (h : m ≤ fuel) :
    digitCountAux fuel m = Nat.log 10 m + 1 := by
  induction fuel generalizing m with
  | zero =>
    have : m = 0 := by omega
    subst this
    simp [digitCountAux]
  | succ fuel ih =>
    rw [digitCountAux]
    by_cases hm : m < 10
    · rw [if_pos hm]
      have : Nat.log 10 m = 0 := Nat.log_eq_zero_iff.mpr (Or.inl hm)
      omega
    · rw [if_neg hm]
      push_neg at hm
      have hdiv : m / 10 ≤ fuel := by
        have : m / 10 < m := Nat.div_lt_self (by omega) (by norm_num)
        omega
      rw [ih _ hdiv]
      have h1 : Nat.log 10 (m / 10) = Nat.log 10 m - 1 := Nat.log_div_base 10 m
      have h2 : 0 < Nat.log 10 m := Nat.log_pos (by norm_num) hm
      omega

lemma digitCount_eq_log (m : ℕ) : digitCount m = Nat.log 10 m + 1 :=
  digitCountAux_eq_log m m le_rfl

/-- The magnitude computed by nice_round (loc_graph.py line 71):
`10 ** (len(str(int(n))) - 1)`.  `int(n)` truncates toward zero, which for
the non-negative arguments below is the floor. -/
def nice_mag (n : ℚ) : ℕ := 10 ^ (digitCount (⌊n⌋).toNat - 1)

/-- Embeds nice_round (loc_graph.py lines 62-80).  Python is dynamically
typed and the function is called both on integers and on binary64 floats;
the argument is modelled as a rational.  The loop over
`steps = [1, 2, 3, 5, 10]` is unrolled; the trailing
`return 10 * magnitude` after the loop merges with the `step = 10` case
(both return `10 * magnitude`). -/
def nice_round (n : ℚ) : ℕ :=
  if n ≤ 0 then 10
  else if n ≤ (1 * nice_mag n : ℕ) then 1 * nice_mag n
  else if n ≤ (2 * nice_mag n : ℕ) then 2 * nice_mag n
  else if n ≤ (3 * nice_mag n : ℕ) then 3 * nice_mag n
  else if n ≤ (5 * nice_mag n : ℕ) then 5 * nice_mag n
  else if n ≤ (10 * nice_mag n : ℕ) then 10 * nice_mag n
  else 10 * nice_mag n

/-- A nice number in the sense of the spec: `s * 10 ^ k` with
`s ∈ {1, 2, 3, 5, 10}` and `k ≥ 0`. -/
def IsNice (v : ℕ) : Prop :=
  ∃ s ∈ ([1, 2, 3, 5, 10] : List ℕ), ∃ k : ℕ, v = s * 10 ^ k

lemma isNice_ten : IsNice 10 := ⟨10, by simp, 0, by norm_num⟩

/-- Every nice number has a canonical form with the step in {1, 2, 3, 5}. -/
lemma isNice_canon {v : ℕ} (h : IsNice v) :
    ∃ s ∈ ([1, 2, 3, 5] : List ℕ), ∃ k : ℕ, v = s * 10 ^ k := by
  obtain ⟨s, hs, k, rfl⟩ := h
  simp only [List.mem_cons, List.not_mem_nil, or_false] at hs
  rcases hs with rfl | rfl | rfl | rfl | rfl
  · exact ⟨1, by simp, k, rfl⟩
  · exact ⟨2, by simp, k, rfl⟩
  · exact ⟨3, by simp, k, rfl⟩
  · exact ⟨5, by simp, k, rfl⟩
  · exact ⟨1, by simp, k + 1, by ring⟩

lemma nice_mag_eq_log (n : ℚ) : nice_mag n = 10 ^ Nat.log 10 (⌊n⌋).toNat := by
  rw [nice_mag, digitCount_eq_log, Nat.add_sub_cancel]

lemma nice_round_pos (n : ℚ) : 0 < nice_round n := by
  unfold nice_round
  have : 0 < nice_mag n := by rw [nice_mag]; positivity
  split_ifs <;> omega

/-- Bounds on the truncated input used inside nice_round. -/
lemma floor_toNat_le {n : ℚ} (hn : 0 < n) : ((⌊n⌋).toNat : ℚ) ≤ n := by
  have h0 : (0 : ℤ) ≤ ⌊n⌋ := Int.floor_nonneg.mpr hn.le
  have heq : ((⌊n⌋).toNat : ℤ) = ⌊n⌋ := Int.toNat_of_nonneg h0
  have hfl : ((⌊n⌋ : ℤ) : ℚ) ≤ n := Int.floor_le n
  rw [show ((⌊n⌋).toNat : ℚ) = ((((⌊n⌋).toNat : ℤ)) : ℚ) by push_cast; ring, heq]
  exact hfl

lemma lt_floor_toNat_add_one {n : ℚ} (hn : 0 < n) : n < ((⌊n⌋).toNat : ℚ) + 1 := by
  have h0 : (0 : ℤ) ≤ ⌊n⌋ := Int.floor_nonneg.mpr hn.le
  have heq : ((⌊n⌋).toNat : ℤ) = ⌊n⌋ := Int.toNat_of_nonneg h0
  have hfl : n < (⌊n⌋ : ℚ) + 1 := Int.lt_floor_add_one n
  rw [show ((⌊n⌋).toNat : ℚ) = ((((⌊n⌋).toNat : ℤ)) : ℚ) by push_cast; ring, heq]
  exact hfl

lemma mag_le_of_pos {n : ℚ} (hm : 0 < (⌊n⌋).toNat) : nice_mag n ≤ (⌊n⌋).toNat := by
  rw [nice_mag_eq_log]
  exact Nat.pow_log_le_self 10 (by omega)

lemma lt_ten_mag {n : ℚ} : (⌊n⌋).toNat < 10 * nice_mag n := by
  rw [nice_mag_eq_log]
  have := Nat.lt_pow_succ_log_self (b := 10) (by norm_num) (⌊n⌋).toNat
  have hp : 10 ^ (Nat.log 10 (⌊n⌋).toNat + 1) = 10 * 10 ^ Nat.log 10 (⌊n⌋).toNat := by ring
  omega

/-- The output of nice_round dominates every positive input. -/
lemma le_nice_round {n : ℚ} (hn : 0 < n) : n ≤ (nice_round n : ℚ) := by
  have hn1 : n < ((⌊n⌋).toNat : ℚ) + 1 := lt_floor_toNat_add_one hn
  have hten : ((⌊n⌋).toNat : ℕ) + 1 ≤ 10 * nice_mag n := lt_ten_mag
  have hcast : n < ((10 * nice_mag n : ℕ) : ℚ) := by
    have : (((⌊n⌋).toNat + 1 : ℕ) : ℚ) ≤ ((10 * nice_mag n : ℕ) : ℚ) := by exact_mod_cast hten
    push_cast at this ⊢
    linarith
  unfold nice_round
  rw [if_neg (by exact not_le.mpr hn)]
  split_ifs with h1 h2 h3 h4 h5
  · exact h1
  · exact h2
  · exact h3
  · exact h4
  · exact h5
  · exact hcast.le

/-- The output of nice_round is always a nice number. -/
lemma nice_round_isNice (n : ℚ) : IsNice (nice_round n) := by
  unfold nice_round
  split_ifs
  · exact isNice_ten
  all_goals rw [nice_mag_eq_log]
  · exact ⟨1, by simp, _, rfl⟩
  · exact ⟨2, by simp, _, rfl⟩
  · exact ⟨3, by simp, _, rfl⟩
  · exact ⟨5, by simp, _, rfl⟩
  · exact ⟨10, by simp, _, rfl⟩
  · exact ⟨10, by simp, _, rfl⟩

/-- nice_round never exceeds ten times the magnitude of its input. -/
lemma nice_round_le_ten_mag {n : ℚ} (hn : 0 < n) :
    nice_round n ≤ 10 * nice_mag n := by
  unfold nice_round
  rw [if_neg (by exact not_le.mpr hn)]
  split_ifs <;> omega

/-- Minimality: nice_round returns the least nice number at or above a
positive input. -/
lemma nice_round_min {n : ℚ} (hn : 0 < n) {v : ℕ} (hv : IsNice v)
    (hnv : n ≤ (v : ℚ)) : nice_round n ≤ v := by
  obtain ⟨s, hs, k, rfl⟩ := isNice_canon hv
  simp only [List.mem_cons, List.not_mem_nil, or_false] at hs
  have hs1 : 1 ≤ s := by rcases hs with rfl | rfl | rfl | rfl <;> omega
  have hs5 : s ≤ 5 := by rcases hs with rfl | rfl | rfl | rfl <;> omega
  have hmn : (((⌊n⌋).toNat : ℕ) : ℚ) ≤ n := floor_toNat_le hn
  have hn1 : n < (((⌊n⌋).toNat : ℕ) : ℚ) + 1 := lt_floor_toNat_add_one hn
  rcases Nat.eq_zero_or_pos (⌊n⌋).toNat with hm0 | hmpos
  · -- n < 1: nice_round n = 1, and every nice number is at least 1
    have hlt1 : n < 1 := by rw [hm0] at hn1; simpa using hn1
    have hmagv : nice_mag n = 1 := by rw [nice_mag_eq_log, hm0]; simp
    have hnr : nice_round n = 1 := by
      unfold nice_round
      rw [if_neg (by exact not_le.mpr hn), hmagv, if_pos (by push_cast; linarith)]
    rw [hnr]
    have hvp : 0 < s * 10 ^ k := by
      have : 0 < (10 : ℕ) ^ k := by positivity
      exact Nat.mul_pos (by omega) this
    omega
  · set d : ℕ := Nat.log 10 (⌊n⌋).toNat with hd
    have hmagd : nice_mag n = 10 ^ d := nice_mag_eq_log n
    have hpow_le : 10 ^ d ≤ (⌊n⌋).toNat := Nat.pow_log_le_self 10 (by omega)
    have hpow_gt : (⌊n⌋).toNat < 10 ^ (d + 1) := Nat.lt_pow_succ_log_self (by norm_num) _
    rcases lt_trichotomy k d with hkd | hkd | hkd
    · -- k < d: the nice value is below 10^d ≤ floor n ≤ n, contradicting n ≤ v
      exfalso
      have hvle : s * 10 ^ k < 10 ^ d := by
        have h1 : s * 10 ^ k ≤ 5 * 10 ^ k := Nat.mul_le_mul_right _ hs5
        have h2 : 5 * 10 ^ k < 10 ^ (k + 1) := by
          have he : 10 ^ (k + 1) = 10 * 10 ^ k := by ring
          have hp : 0 < (10 : ℕ) ^ k := by positivity
          omega
        have h3 : 10 ^ (k + 1) ≤ 10 ^ d := Nat.pow_le_pow_right (by norm_num) (by omega)
        omega
      have hlt : (s * 10 ^ k : ℕ) < (⌊n⌋).toNat := lt_of_lt_of_le hvle hpow_le
      have : ((s * 10 ^ k : ℕ) : ℚ) < (((⌊n⌋).toNat : ℕ) : ℚ) := by exact_mod_cast hlt
      linarith
    · -- k = d: step through the unrolled comparisons
      subst hkd
      unfold nice_round
      rw [if_neg (by exact not_le.mpr hn), hmagd]
      have hc2 : ((2 * 10 ^ d : ℕ) : ℚ) ≤ ((s * 10 ^ d : ℕ) : ℚ) → 2 ≤ s := by
        intro h
        have hq : (2 * 10 ^ d : ℕ) ≤ s * 10 ^ d := by exact_mod_cast h
        have hp : 0 < (10 : ℕ) ^ d := by positivity
        exact Nat.le_of_mul_le_mul_right hq hp
      split_ifs with h1 h2 h3 h4 h5
      · exact Nat.mul_le_mul_right _ hs1
      · -- n > 1*mag so s ≥ 2
        have hge : 2 ≤ s := by
          by_contra hc
          have : s = 1 := by omega
          subst this
          exact h1 (by exact_mod_cast hnv)
        exact Nat.mul_le_mul_right _ hge
      · have hge : 3 ≤ s := by
          by_contra hc
          have hcase : s = 1 ∨ s = 2 := by omega
          rcases hcase with rfl | rfl
          · exact h1 (by exact_mod_cast hnv)
          · exact h2 (by exact_mod_cast hnv)
        exact Nat.mul_le_mul_right _ hge
      · have hge : 5 ≤ s := by
          by_contra hc
          have hcase : s = 1 ∨ s = 2 ∨ s = 3 := by
            rcases hs with rfl | rfl | rfl | rfl <;> omega
          rcases hcase with rfl | rfl | rfl
          · exact h1 (by exact_mod_cast hnv)
          · exact h2 (by exact_mod_cast hnv)
          · exact h3 (by exact_mod_cast hnv)
        exact Nat.mul_le_mul_right _ hge
      · -- n > 5*mag but s ≤ 5 contradicts n ≤ s * 10^d
        exfalso
        apply h4
        have hq : (s * 10 ^ d : ℕ) ≤ 5 * 10 ^ d := Nat.mul_le_mul_right _ hs5
        have : ((s * 10 ^ d : ℕ) : ℚ) ≤ ((5 * 10 ^ d : ℕ) : ℚ) := by exact_mod_cast hq
        linarith
      · exfalso
        apply h4
        have hq : (s * 10 ^ d : ℕ) ≤ 5 * 10 ^ d := Nat.mul_le_mul_right _ hs5
        have : ((s * 10 ^ d : ℕ) : ℚ) ≤ ((5 * 10 ^ d : ℕ) : ℚ) := by exact_mod_cast hq
        linarith
    · -- k > d: the nice value is at least 10^(d+1) ≥ 10 * mag ≥ nice_round n
      have h1 : 10 * 10 ^ d ≤ 10 ^ k := by
        have he : 10 * 10 ^ d = 10 ^ (d + 1) := by ring
        rw [he]
        exact Nat.pow_le_pow_right (by norm_num) (by omega)
      have h2 : 10 ^ k ≤ s * 10 ^ k := Nat.le_mul_of_pos_left _ (by omega)
      have h3 : nice_round n ≤ 10 * nice_mag n := nice_round_le_ten_mag hn
      rw [hmagd] at h3
      omega

/-- If v and w are both nice numbers and v < w, then w is at least 3/2 of v
(the smallest relative gap in the nice sequence is from 2 to 3). -/
lemma nice_gap {v w : ℕ} (hv : IsNice v) (hw : IsNice w) (hvw : v < w) :
    3 * v ≤ 2 * w := by
  obtain ⟨s, hs, j, rfl⟩ := isNice_canon hv
  obtain ⟨t, ht, k, rfl⟩ := isNice_canon hw
  simp only [List.mem_cons, List.not_mem_nil, or_false] at hs ht
  have hs1 : 1 ≤ s := by rcases hs with rfl | rfl | rfl | rfl <;> omega
  have hs5 : s ≤ 5 := by rcases hs with rfl | rfl | rfl | rfl <;> omega
  have ht1 : 1 ≤ t := by rcases ht with rfl | rfl | rfl | rfl <;> omega
  have ht5 : t ≤ 5 := by rcases ht with rfl | rfl | rfl | rfl <;> omega
  rcases lt_trichotomy j k with hjk | hjk | hjk
  · -- j < k: w ≥ 10^k ≥ 10 * 10^j while v ≤ 5 * 10^j
    have h1 : 10 * 10 ^ j ≤ 10 ^ k := by
      have he : 10 * 10 ^ j = 10 ^ (j + 1) := by ring
      rw [he]
      exact Nat.pow_le_pow_right (by norm_num) (by omega)
    have h2 : 10 ^ k ≤ t * 10 ^ k := Nat.le_mul_of_pos_left _ (by omega)
    have h3 : s * 10 ^ j ≤ 5 * 10 ^ j := Nat.mul_le_mul_right _ hs5
    calc 3 * (s * 10 ^ j) ≤ 3 * (5 * 10 ^ j) := by omega
      _ ≤ 2 * (10 * 10 ^ j) := by omega
      _ ≤ 2 * (10 ^ k) := by omega
      _ ≤ 2 * (t * 10 ^ k) := by omega
  · subst hjk
    have hp : 0 < (10 : ℕ) ^ j := by positivity
    have hst : s < t := by
      by_contra hc
      push_neg at hc
      have := Nat.mul_le_mul_right (10 ^ j) hc
      omega
    have h32 : 3 * s ≤ 2 * t := by
      rcases hs with rfl | rfl | rfl | rfl <;> rcases ht with rfl | rfl | rfl | rfl <;> omega
    calc 3 * (s * 10 ^ j) = (3 * s) * 10 ^ j := by ring
      _ ≤ (2 * t) * 10 ^ j := Nat.mul_le_mul_right _ h32
      _ = 2 * (t * 10 ^ j) := by ring
  · -- j > k: v ≥ 10^j ≥ 10 * 10^k > 5 * 10^k ≥ w, contradicting v < w
    exfalso
    have h1 : 10 * 10 ^ k ≤ 10 ^ j := by
      have he : 10 * 10 ^ k = 10 ^ (k + 1) := by ring
      rw [he]
      exact Nat.pow_le_pow_right (by norm_num) (by omega)
    have h2 : 10 ^ j ≤ s * 10 ^ j := Nat.le_mul_of_pos_left _ (by omega)
    have h3 : t * 10 ^ k ≤ 5 * 10 ^ k := Nat.mul_le_mul_right _ ht5
    have hp : 0 < (10 : ℕ) ^ k := by positivity
    omega

example : nice_round 11 = 20 := by decide
example : nice_round 0 = 10 := by decide
example : nice_round 1 = 1 := by decide
example : nice_round 80 = 100 := by decide
example : nice_round 246 = 300 := by decide
example : nice_round 1000 = 1000 := by decide
example : nice_round 1001 = 2000 := by decide
/-- C2: nice_round returns the fixed minimum 10 on every non-positive
input, and on every positive input the smallest value of the form
s * 10 ^ k with s in {1, 2, 3, 5, 10} that is at or above the input; in
particular the result dominates every positive input, nice_round 11 = 20
and nice_round 0 = 10. -/
theorem nice_round_spec :
    (∀ n : ℚ, n ≤ 0 → nice_round n = 10) ∧
    (∀ n : ℚ, 0 < n → IsNice (nice_round n) ∧ n ≤ (nice_round n : ℚ) ∧
      ∀ v : ℕ, IsNice v → n ≤ (v : ℚ) → nice_round n ≤ v) ∧
    nice_round 11 = 20 ∧ nice_round 0 = 10 := by
  refine ⟨?_, ?_, by decide, by decide⟩
  · intro n hn
    unfold nice_round
    rw [if_pos hn]
  · intro n hn
    exact ⟨nice_round_isNice n, le_nice_round hn,
      fun v hv hnv => nice_round_min hn hv hnv⟩

/-- Witness for C2 at concrete inputs -3 and 7. -/
theorem nice_round_spec_witness :
    nice_round (-3 : ℚ) = 10 ∧ IsNice (nice_round 7) ∧
      ((7 : ℚ) ≤ (nice_round 7 : ℚ)) ∧ nice_round 7 ≤ 10 :=
  ⟨nice_round_spec.1 (-3) (by norm_num),
   (nice_round_spec.2.1 7 (by norm_num)).1,
   (nice_round_spec.2.1 7 (by norm_num)).2.1,
   (nice_round_spec.2.1 7 (by norm_num)).2.2 10 isNice_ten (by norm_num)⟩

/-- C4 counterexample: monotonicity fails at the zero boundary, since
nice_round 0 = 10 (the zero floor) exceeds nice_round 1 = 1. -/
theorem nice_round_not_monotone :
    (0 : ℚ) ≤ 1 ∧ ¬ nice_round (0 : ℚ) ≤ nice_round (1 : ℚ) := by
  refine ⟨by norm_num, ?_⟩
  decide

/-- C4 amended: nice_round is monotone non-decreasing on positive inputs
(the zero/negative floor value 10 breaks monotonicity only at the
boundary, since non-positive inputs map to 10 while small positive inputs
map to values as small as 1). -/
theorem nice_round_monotone_pos :
    ∀ m n : ℚ, 0 < m → m ≤ n → nice_round m ≤ nice_round n := by
  intro m n hm hmn
  have hn : 0 < n := lt_of_lt_of_le hm hmn
  exact nice_round_min hm (nice_round_isNice n) (le_trans hmn (le_nice_round hn))

/-- Witness for the amended C4 at the pair (3, 7). -/
theorem nice_round_monotone_pos_witness : nice_round (3 : ℚ) ≤ nice_round (7 : ℚ) :=
  nice_round_monotone_pos 3 7 (by norm_num) (by norm_num)

/-- Embeds the chart maximum of generate_svg (line 119):
`max(ys) if max(ys) > 0 else 100`.  Over the natural-number loc values a
fold of max with base 0 equals the Python max of a nonempty list. -/
def chartMax (ys : List ℕ) : ℕ :=
  if 0 < ys.foldr max 0 then ys.foldr max 0 else 100

/-- Embeds the y-axis upper-bound escalation of generate_svg (lines
122-129).  The binary64 products `ymax * 0.8` and `ymax * 1.1` are
modelled in exact rational arithmetic, which agrees with the float
semantics at every reachable argument (see the header note). -/
def calcYmax (max_val : ℕ) : ℕ :=
  if (max_val : ℚ) = (nice_round (max_val : ℚ) : ℚ) ∨
      (nice_round (max_val : ℚ) : ℚ) * (8 / 10) < (max_val : ℚ) then
    nice_round ((nice_round (max_val : ℚ) : ℚ) * (11 / 10) + 1)
  else nice_round (max_val : ℚ)

lemma calcYmax_pos (mv : ℕ) : 0 < calcYmax mv := by
  unfold calcYmax
  split_ifs <;> exact nice_round_pos _

/-- The rational and natural forms of the escalation condition agree. -/
lemma calcYmax_cond_iff (mv : ℕ) :
    ((mv : ℚ) = (nice_round (mv : ℚ) : ℚ) ∨
      (nice_round (mv : ℚ) : ℚ) * (8 / 10) < (mv : ℚ)) ↔
    (mv = nice_round (mv : ℚ) ∨ 4 * nice_round (mv : ℚ) < 5 * mv) := by
  constructor
  · rintro (h | h)
    · exact Or.inl (by exact_mod_cast h)
    · right
      have h8 : (8 * nice_round (mv : ℚ) : ℚ) < 10 * mv := by linarith
      have h8n : (8 * nice_round (mv : ℚ) : ℕ) < 10 * mv := by exact_mod_cast h8
      omega
  · rintro (h | h)
    · exact Or.inl (by exact_mod_cast h)
    · right
      have h8n : (8 * nice_round (mv : ℚ) : ℕ) < 10 * mv := by omega
      have h8 : (8 * nice_round (mv : ℚ) : ℚ) < 10 * mv := by exact_mod_cast h8n
      linarith

/-- The escalated bound strictly exceeds the first nice bound. -/
lemma escalated_gt (b : ℕ) :
    b < nice_round ((b : ℚ) * (11 / 10) + 1) := by
  have harg : (0 : ℚ) < (b : ℚ) * (11 / 10) + 1 := by
    have : (0 : ℚ) ≤ (b : ℚ) := Nat.cast_nonneg b
    linarith
  have h1 : ((b : ℚ) * (11 / 10) + 1) ≤ (nice_round ((b : ℚ) * (11 / 10) + 1) : ℚ) :=
    le_nice_round harg
  have h2 : (b : ℚ) < (b : ℚ) * (11 / 10) + 1 := by
    have : (0 : ℚ) ≤ (b : ℚ) := Nat.cast_nonneg b
    linarith
  exact_mod_cast lt_of_lt_of_le h2 h1

/-- C3: in the y-axis computation, whenever the maximum value equals the
nice bound or exceeds 80 percent of it, the bound is escalated to
nice_round(bound * 1.1 + 1); consequently for every positive maximum the
final bound strictly exceeds the maximum and axis usage is at most 85
percent, and calcYmax 80 = 100. -/
theorem ymax_spec :
    (∀ mv : ℕ, 0 < mv →
      ((mv = nice_round (mv : ℚ) ∨ 4 * nice_round (mv : ℚ) < 5 * mv) →
        calcYmax mv = nice_round ((nice_round (mv : ℚ) : ℚ) * (11 / 10) + 1)) ∧
      mv < calcYmax mv ∧ 20 * mv ≤ 17 * calcYmax mv) ∧
    calcYmax 80 = 100 := by
  constructor
  · intro mv hmv
    have hmvq : (0 : ℚ) < (mv : ℚ) := by exact_mod_cast hmv
    have hble : (mv : ℚ) ≤ (nice_round (mv : ℚ) : ℚ) := le_nice_round hmvq
    have hbleN : mv ≤ nice_round (mv : ℚ) := by exact_mod_cast hble
    have hbpos : 0 < nice_round (mv : ℚ) := nice_round_pos _
    refine ⟨?_, ?_, ?_⟩
    · intro hcond
      unfold calcYmax
      rw [if_pos ((calcYmax_cond_iff mv).mpr hcond)]
    · unfold calcYmax
      split_ifs with hc
      · exact lt_of_le_of_lt hbleN (escalated_gt _)
      · rw [calcYmax_cond_iff] at hc
        push_neg at hc
        omega
    · unfold calcYmax
      split_ifs with hc
      · have hgap : 3 * nice_round (mv : ℚ) ≤
            2 * nice_round ((nice_round (mv : ℚ) : ℚ) * (11 / 10) + 1) :=
          nice_gap (nice_round_isNice _) (nice_round_isNice _) (escalated_gt _)
        omega
      · rw [calcYmax_cond_iff] at hc
        push_neg at hc
        omega
  · have h80 : nice_round ((80 : ℕ) : ℚ) = 100 := by norm_num; decide
    unfold calcYmax
    rw [h80]
    rw [if_neg (by norm_num)]

/-- Witness for C3 at the concrete maximum 100 (escalated to 200). -/
theorem ymax_spec_witness :
    (100 = nice_round ((100 : ℕ) : ℚ) ∨ 4 * nice_round ((100 : ℕ) : ℚ) < 5 * 100) ∧
    calcYmax 100 = nice_round ((nice_round ((100 : ℕ) : ℚ) : ℚ) * (11 / 10) + 1) ∧
    100 < calcYmax 100 ∧ 20 * 100 ≤ 17 * calcYmax 100 := by
  have hc : (100 : ℕ) = nice_round ((100 : ℕ) : ℚ) ∨
      4 * nice_round ((100 : ℕ) : ℚ) < 5 * 100 := by
    left
    norm_num
    decide
  exact ⟨hc, (ymax_spec.1 100 (by norm_num)).1 hc,
    (ymax_spec.1 100 (by norm_num)).2.1, (ymax_spec.1 100 (by norm_num)).2.2⟩
/-- Embeds the horizontal pixel-coordinate function sx of generate_svg
(line 131): `pad + i * (w - 2*pad) / max(1, len(xs)-1)`.  The float
arithmetic is modelled as exact rationals; the safety claim at issue
concerns only whether the divisor is zero, which is independent of
rounding. -/
def sx (w pad n i : ℕ) : ℚ :=
  (pad : ℚ) + (i : ℚ) * ((w : ℚ) - 2 * (pad : ℚ)) / ((max 1 (n - 1) : ℕ) : ℚ)

/-- Embeds the vertical pixel-coordinate function sy of generate_svg
(line 132), with `ymin = 0` from line 117. -/
def sy (h pad ymax v : ℕ) : ℚ :=
  (h : ℚ) - (pad : ℚ) - ((v : ℚ) - 0) * ((h : ℚ) - 2 * (pad : ℚ)) / ((ymax : ℚ) - 0)

lemma foldr_max_zero {ys : List ℕ} (h : ∀ y ∈ ys, y = 0) : ys.foldr max 0 = 0 := by
  induction ys with
  | nil => rfl
  | cons a t ih =>
    have ha : a = 0 := h a (by simp)
    have ht : t.foldr max 0 = 0 := ih (fun y hy => h y (by simp [hy]))
    simp [List.foldr, ha, ht]

/-- C10: the renderer coordinate arithmetic is total on nonempty input:
when all counts are zero the maximum is replaced by 100 before rounding,
nice_round never returns less than 1, the computed upper bound is strictly
positive, and the horizontal divisor max(1, n-1) is at least 1, so the
denominators ymax - ymin and max(1, n-1) of sy and sx are nonzero. -/
theorem render_denominators_safe :
    (∀ q : ℚ, 1 ≤ nice_round q) ∧
    ∀ ys : List ℕ, ys ≠ [] →
      ((∀ y ∈ ys, y = 0) → chartMax ys = 100) ∧
      0 < calcYmax (chartMax ys) ∧
      1 ≤ max 1 (ys.length - 1) ∧
      ((calcYmax (chartMax ys) : ℚ) - 0 ≠ 0) ∧
      (((max 1 (ys.length - 1) : ℕ) : ℚ) ≠ 0) := by
  constructor
  · intro q
    exact nice_round_pos q
  · intro ys hys
    refine ⟨?_, calcYmax_pos _, le_max_left _ _, ?_, ?_⟩
    · intro hz
      unfold chartMax
      rw [foldr_max_zero hz]
      norm_num
    · rw [sub_zero]
      exact Nat.cast_ne_zero.mpr (calcYmax_pos _).ne'
    · exact Nat.cast_ne_zero.mpr (by omega)

/-- Witness for C10 on the single-point all-zero history [0]. -/
theorem render_denominators_safe_witness :
    chartMax [0] = 100 ∧ 0 < calcYmax (chartMax [0]) ∧
    1 ≤ max 1 (([0] : List ℕ).length - 1) ∧
    ((calcYmax (chartMax [0]) : ℚ) - 0 ≠ 0) ∧
    (((max 1 (([0] : List ℕ).length - 1) : ℕ) : ℚ) ≠ 0) := by
  have h := render_denominators_safe.2 [0] (by simp)
  exact ⟨h.1 (by simp), h.2.1, h.2.2.1, h.2.2.2.1, h.2.2.2.2⟩

/-- Embeds the date-label subsampling condition of generate_svg (line
152): a label (with its grid line) is drawn at index i exactly when
`len(points) <= 10 or i % max(1, len(points) // 10) == 0`. -/
def drawLabel (n i : ℕ) : Bool :=
  decide (n ≤ 10) || (i % max 1 (n / 10) == 0)

/-- The number of date labels drawn for n points by the loop of lines
150-161: one label per index below n satisfying drawLabel. -/
def labelCount (n : ℕ) : ℕ :=
  ((Finset.range n).filter (fun i => drawLabel n i = true)).card

/-- C8 counterexample: with 11 points the subsampling step is
max(1, 11 div 10) = 1, so all 11 indices receive labels and more than 10
labels are drawn. -/
theorem label_count_exceeds_ten : 10 < labelCount 11 := by decide

/-- C8 amended: a label is drawn at index i exactly when n ≤ 10 or i is a
multiple of max(1, n div 10); the number of labels drawn is at most 19
for every point count n, at most 15 once n ≥ 20, and the maximum 19 is
attained at n = 19 — rather than at most 10. -/
theorem label_count_bound :
    (∀ n : ℕ, labelCount n ≤ 19 ∧
      (20 ≤ n → labelCount n ≤ 15) ∧
      ∀ i : ℕ, drawLabel n i = true ↔ (n ≤ 10 ∨ i % max 1 (n / 10) = 0)) ∧
    labelCount 19 = 19 := by
  constructor
  · intro n
    have h15 : 20 ≤ n → labelCount n ≤ 15 := by
      intro hn
      have hs2 : 2 ≤ n / 10 := by omega
      have hmem : ∀ i ∈ (Finset.range n).filter (fun i => drawLabel n i = true),
          i % (n / 10) = 0 ∧ i < n := by
        intro i hi
        rw [Finset.mem_filter, Finset.mem_range] at hi
        obtain ⟨hin, hd⟩ := hi
        unfold drawLabel at hd
        rw [Bool.or_eq_true, decide_eq_true_eq, beq_iff_eq] at hd
        rcases hd with hd | hd
        · omega
        · rw [Nat.max_eq_right (by omega)] at hd
          exact ⟨hd, hin⟩
      have hcard : labelCount n ≤ (Finset.range 15).card := by
        apply Finset.card_le_card_of_injOn (fun i => i / (n / 10))
        · intro i hi
          obtain ⟨hmod, hin⟩ := hmem i hi
          rw [Finset.mem_range]
          rw [Nat.div_lt_iff_lt_mul (by omega)]
          omega
        · intro i₁ h₁ i₂ h₂ heq
          obtain ⟨hm₁, _⟩ := hmem i₁ h₁
          obtain ⟨hm₂, _⟩ := hmem i₂ h₂
          have hd₁ : (n / 10) ∣ i₁ := Nat.dvd_of_mod_eq_zero hm₁
          have hd₂ : (n / 10) ∣ i₂ := Nat.dvd_of_mod_eq_zero hm₂
          have e₁ : i₁ / (n / 10) * (n / 10) = i₁ := Nat.div_mul_cancel hd₁
          have e₂ : i₂ / (n / 10) * (n / 10) = i₂ := Nat.div_mul_cancel hd₂
          simp only at heq
          rw [← e₁, ← e₂, heq]
      calc labelCount n ≤ (Finset.range 15).card := hcard
        _ = 15 := Finset.card_range 15
    refine ⟨?_, h15, ?_⟩
    · by_cases hn : n ≤ 19
      · calc labelCount n ≤ (Finset.range n).card := Finset.card_filter_le _ _
          _ = n := Finset.card_range n
          _ ≤ 19 := hn
      · calc labelCount n ≤ 15 := h15 (by omega)
          _ ≤ 19 := by norm_num
    · intro i
      unfold drawLabel
      rw [Bool.or_eq_true, decide_eq_true_eq, beq_iff_eq]
  · decide
/-- Round p / q to the nearest integer, ties to even (for q > 0): the
rounding of IEEE binary64 arithmetic and of CPython float formatting. -/
def roundHalfEven (p q : ℕ) : ℕ :=
  if 2 * (p % q) < q then p / q
  else if q < 2 * (p % q) then p / q + 1
  else if p / q % 2 = 0 then p / q else p / q + 1

/-- Fuel-based floor base-2 logarithm, kernel-reducible. -/
def log2Aux : ℕ → ℕ → ℕ
  | 0, _ => 0
  | fuel + 1, m => if m < 2 then 0 else log2Aux fuel (m / 2) + 1

def floorLog2 (m : ℕ) : ℕ := log2Aux m m

/-- The binary exponent of num / den for den ≤ num: the quotient is at
least 1 and the floor base-2 log of its integer part is the IEEE
exponent. -/
def floatExp (num den : ℕ) : ℕ := floorLog2 (num / den)

/-- Mantissa part of the binary64 value nearest to num / den (0 < den ≤
num): the value is float53M / 2 ^ float53C.  The mantissa is the
round-to-nearest-even of the quotient scaled by 2 ^ (52 - e); quotients
whose exponent exceeds 52 round to an integer (exponent clipped to 0).
Overflow to infinity (quotients at 2^1024 and beyond) lies outside the
range format_number is applied to and is not modelled. -/
def float53M (num den : ℕ) : ℕ :=
  if floatExp num den ≤ 52 then
    roundHalfEven (num * 2 ^ (52 - floatExp num den)) den
  else
    roundHalfEven num (den * 2 ^ (floatExp num den - 52)) * 2 ^ (floatExp num den - 52)

def float53C (num den : ℕ) : ℕ :=
  if floatExp num den ≤ 52 then 52 - floatExp num den else 0

/-- The one-decimal rounding of the binary64 quotient n / scale, as an
integer number of tenths.  CPython renders `f"{x:.1f}"` by correctly
rounding the exact binary value of x with ties to even; a tie means x is
an odd multiple of 1/20, and this computation applies the same rule
exactly. -/
def tenths (n scale : ℕ) : ℕ :=
  roundHalfEven (10 * float53M n scale) (2 ^ float53C n scale)

/-- Embeds Python `f"{n/scale:.1f}"` for non-negative arguments. -/
def pyFmt1 (n scale : ℕ) : String :=
  Nat.repr (tenths n scale / 10) ++ "." ++ Nat.repr (tenths n scale % 10)

/-- Embeds Python `f"{n/scale:.0f}"` for non-negative arguments: the
binary64 quotient rounded to the nearest integer, ties to even. -/
def pyFmt0 (n scale : ℕ) : String :=
  Nat.repr (roundHalfEven (float53M n scale) (2 ^ float53C n scale))

/-- Embeds format_number (loc_graph.py lines 82-89). -/
def format_number (n : ℕ) : String :=
  if 1000000 ≤ n then
    (if n % 1000000 = 0 then pyFmt0 n 1000000 else pyFmt1 n 1000000) ++ "M"
  else if 1000 ≤ n then
    (if n % 1000 = 0 then pyFmt0 n 1000 else pyFmt1 n 1000) ++ "k"
  else Nat.repr n

example : format_number 0 = "0" := by decide
example : format_number 999 = "999" := by decide
example : format_number 1000 = "1k" := by decide
example : format_number 1500 = "1.5k" := by decide
example : format_number 1234 = "1.2k" := by decide
example : format_number 1999 = "2.0k" := by decide
example : format_number 1001 = "1.0k" := by decide
example : format_number 1000000 = "1M" := by decide
example : format_number 1500000 = "1.5M" := by decide
example : format_number 1150 = "1.1k" := by decide
example : format_number 1250 = "1.2k" := by decide
example : format_number 1750 = "1.8k" := by decide
lemma log2Aux_eq_log (fuel m : ℕ) (h : m ≤ fuel) :
    log2Aux fuel m = Nat.log 2 m := by
  induction fuel generalizing m with
  | zero =>
    have : m = 0 := by omega
    subst this
    simp [log2Aux]
  | succ fuel ih =>
    rw [log2Aux]
    by_cases hm : m < 2
    · rw [if_pos hm]
      have : Nat.log 2 m = 0 := Nat.log_eq_zero_iff.mpr (Or.inl hm)
      omega
    · rw [if_neg hm]
      push_neg at hm
      have hdiv : m / 2 ≤ fuel := by
        have : m / 2 < m := Nat.div_lt_self (by omega) (by norm_num)
        omega
      rw [ih _ hdiv]
      have h1 : Nat.log 2 (m / 2) = Nat.log 2 m - 1 := Nat.log_div_base 2 m
      have h2 : 0 < Nat.log 2 m := Nat.log_pos (by norm_num) hm
      omega

lemma floorLog2_eq_log (m : ℕ) : floorLog2 m = Nat.log 2 m :=
  log2Aux_eq_log m m le_rfl


lemma roundHalfEven_exact {p q : ℕ} (hq : 0 < q) (hdvd : q ∣ p) :
    roundHalfEven p q = p / q := by
  unfold roundHalfEven
  obtain ⟨c, rfl⟩ := hdvd
  have h0 : q * c % q = 0 := Nat.mul_mod_right q c
  rw [h0]
  simp [hq]

lemma roundHalfEven_close {p q : ℕ} (hq : 0 < q) :
    |(roundHalfEven p q : ℚ) - (p : ℚ) / (q : ℚ)| ≤ 1 / 2 := by
  have hqQ : (0 : ℚ) < (q : ℚ) := by exact_mod_cast hq
  have hmodn : p % q < q := Nat.mod_lt p hq
  have hkey : (p : ℚ) / (q : ℚ) = ((p / q : ℕ) : ℚ) + ((p % q : ℕ) : ℚ) / (q : ℚ) := by
    have h := Nat.div_add_mod p q
    have hcast : ((q * (p / q) + p % q : ℕ) : ℚ) = (p : ℚ) := by exact_mod_cast congrArg Nat.cast h
    push_cast at hcast
    field_simp
    linarith
  have hr0 : (0 : ℚ) ≤ ((p % q : ℕ) : ℚ) / (q : ℚ) := by positivity
  have hr1 : ((p % q : ℕ) : ℚ) / (q : ℚ) < 1 := by
    rw [div_lt_one hqQ]
    exact_mod_cast hmodn
  unfold roundHalfEven
  split_ifs with h1 h2 h3
  · have hh : ((p % q : ℕ) : ℚ) / (q : ℚ) < 1 / 2 := by
      rw [div_lt_div_iff hqQ (by norm_num)]
      have hcc : ((2 * (p % q) : ℕ) : ℚ) < (q : ℚ) := by exact_mod_cast h1
      push_cast at hcc
      linarith
    rw [hkey, abs_le]
    constructor <;> push_cast <;> linarith
  · have hh : 1 / 2 < ((p % q : ℕ) : ℚ) / (q : ℚ) := by
      rw [div_lt_div_iff (by norm_num) hqQ]
      have hcc : (q : ℚ) < ((2 * (p % q) : ℕ) : ℚ) := by exact_mod_cast h2
      push_cast at hcc
      linarith
    rw [hkey, abs_le]
    constructor <;> push_cast <;> linarith
  · have heq : ((p % q : ℕ) : ℚ) / (q : ℚ) = 1 / 2 := by
      have hn : 2 * (p % q) = q := by omega
      rw [div_eq_div_iff hqQ.ne' (by norm_num : (2:ℚ) ≠ 0)]
      have hcc : ((2 * (p % q) : ℕ) : ℚ) = (q : ℚ) := by exact_mod_cast congrArg Nat.cast hn
      push_cast at hcc
      linarith
    rw [hkey, abs_le]
    constructor <;> push_cast <;> linarith
  · have heq : ((p % q : ℕ) : ℚ) / (q : ℚ) = 1 / 2 := by
      have hn : 2 * (p % q) = q := by omega
      rw [div_eq_div_iff hqQ.ne' (by norm_num : (2:ℚ) ≠ 0)]
      have hcc : ((2 * (p % q) : ℕ) : ℚ) = (q : ℚ) := by exact_mod_cast congrArg Nat.cast hn
      push_cast at hcc
      linarith
    rw [hkey, abs_le]
    constructor <;> push_cast <;> linarith

lemma floatExp_small {n q : ℕ} (hq : 0 < q) (hqn : q ≤ n) (hlt : n < 1024 * q) :
    floatExp n q ≤ 9 := by
  unfold floatExp
  rw [floorLog2_eq_log]
  have ha1 : 1 ≤ n / q := (Nat.one_le_div_iff hq).mpr hqn
  have ha : n / q < 1024 := by
    rw [Nat.div_lt_iff_lt_mul hq]
    omega
  have hlog : Nat.log 2 (n / q) < 10 := by
    apply Nat.log_lt_of_lt_pow (by omega)
    norm_num
    omega
  omega

lemma float53_small_eq {n q : ℕ} (hq : 0 < q) (hqn : q ≤ n) (hlt : n < 1024 * q) :
    float53M n q = roundHalfEven (n * 2 ^ (52 - floatExp n q)) q ∧
    float53C n q = 52 - floatExp n q := by
  have h9 := floatExp_small hq hqn hlt
  unfold float53M float53C
  rw [if_pos (by omega), if_pos (by omega)]
  exact ⟨rfl, rfl⟩

lemma float53_close {n q : ℕ} (hq : 0 < q) (hqn : q ≤ n) (hlt : n < 1024 * q) :
    |(float53M n q : ℚ) / 2 ^ (float53C n q) - (n : ℚ) / q| ≤ 1 / 2 ^ 44 := by
  obtain ⟨hM, hC⟩ := float53_small_eq hq hqn hlt
  have h9 := floatExp_small hq hqn hlt
  have hc43 : 43 ≤ 52 - floatExp n q := by omega
  have h2c : (0 : ℚ) < 2 ^ (52 - floatExp n q) := by positivity
  have hqQ : (0 : ℚ) < (q : ℚ) := by exact_mod_cast hq
  have hclose := roundHalfEven_close (p := n * 2 ^ (52 - floatExp n q)) (q := q) hq
  rw [hM, hC]
  have hsplit : (roundHalfEven (n * 2 ^ (52 - floatExp n q)) q : ℚ) / 2 ^ (52 - floatExp n q)
        - (n : ℚ) / q =
      ((roundHalfEven (n * 2 ^ (52 - floatExp n q)) q : ℚ)
        - ((n * 2 ^ (52 - floatExp n q) : ℕ) : ℚ) / q) / 2 ^ (52 - floatExp n q) := by
    push_cast
    field_simp
    ring
  rw [hsplit, abs_div, abs_of_pos h2c]
  have hstep : |(roundHalfEven (n * 2 ^ (52 - floatExp n q)) q : ℚ)
      - ((n * 2 ^ (52 - floatExp n q) : ℕ) : ℚ) / q| / 2 ^ (52 - floatExp n q)
      ≤ (1 / 2) / 2 ^ (52 - floatExp n q) :=
    (div_le_div_right h2c).mpr hclose
  refine le_trans hstep ?_
  have hpow : (2 : ℚ) ^ 44 ≤ 2 ^ (52 - floatExp n q + 1) :=
    pow_le_pow_right (by norm_num) (by omega)
  have hrw : (1 : ℚ) / 2 / 2 ^ (52 - floatExp n q) = 1 / 2 ^ (52 - floatExp n q + 1) := by
    rw [pow_succ]
    ring
  rw [hrw]
  exact one_div_le_one_div_of_le (by positivity) hpow

lemma tenths_close {n q : ℕ} (hq : 0 < q) (hqn : q ≤ n) (hlt : n < 1024 * q) :
    |(tenths n q : ℚ) / 10 - (n : ℚ) / q| ≤ 1 / 10 := by
  have hfc := float53_close hq hqn hlt
  have ht := roundHalfEven_close (p := 10 * float53M n q) (q := 2 ^ float53C n q)
    (by positivity)
  have hcast : ((10 * float53M n q : ℕ) : ℚ) / ((2 ^ float53C n q : ℕ) : ℚ) =
      10 * ((float53M n q : ℚ) / 2 ^ (float53C n q)) := by
    push_cast
    ring
  rw [hcast] at ht
  have h10 : |10 * ((float53M n q : ℚ) / 2 ^ (float53C n q)) - 10 * ((n : ℚ) / q)| ≤
      10 * (1 / 2 ^ 44) := by
    rw [show (10 : ℚ) * ((float53M n q : ℚ) / 2 ^ (float53C n q)) - 10 * ((n : ℚ) / q) =
        10 * ((float53M n q : ℚ) / 2 ^ (float53C n q) - (n : ℚ) / q) by ring]
    rw [abs_mul, abs_of_pos (by norm_num : (0 : ℚ) < 10)]
    exact mul_le_mul_of_nonneg_left hfc (by norm_num)
  have htri : |(tenths n q : ℚ) - 10 * ((n : ℚ) / q)| ≤ 1 / 2 + 10 * (1 / 2 ^ 44) := by
    have hh := abs_add ((tenths n q : ℚ) - 10 * ((float53M n q : ℚ) / 2 ^ (float53C n q)))
      (10 * ((float53M n q : ℚ) / 2 ^ (float53C n q)) - 10 * ((n : ℚ) / q))
    have hsum : ((tenths n q : ℚ) - 10 * ((float53M n q : ℚ) / 2 ^ (float53C n q))) +
        (10 * ((float53M n q : ℚ) / 2 ^ (float53C n q)) - 10 * ((n : ℚ) / q)) =
        (tenths n q : ℚ) - 10 * ((n : ℚ) / q) := by ring
    rw [hsum] at hh
    have ht2 : |(tenths n q : ℚ) - 10 * ((float53M n q : ℚ) / 2 ^ (float53C n q))| ≤ 1 / 2 := ht
    linarith
  have hdiv : (tenths n q : ℚ) / 10 - (n : ℚ) / q =
      ((tenths n q : ℚ) - 10 * ((n : ℚ) / q)) / 10 := by ring
  rw [hdiv, abs_div, abs_of_pos (by norm_num : (0 : ℚ) < 10)]
  rw [div_le_div_iff (by norm_num) (by norm_num)]
  nlinarith [htri]

lemma pyFmt0_exact {n q : ℕ} (hq : 0 < q) (hdvd : q ∣ n) (hqn : q ≤ n)
    (hlt : n < 1024 * q) : pyFmt0 n q = Nat.repr (n / q) := by
  have h9 := floatExp_small hq hqn hlt
  obtain ⟨a, rfl⟩ := hdvd
  have hM : float53M (q * a) q = a * 2 ^ (52 - floatExp (q * a) q) := by
    unfold float53M
    rw [if_pos (by omega)]
    rw [show q * a * 2 ^ (52 - floatExp (q * a) q) =
        q * (a * 2 ^ (52 - floatExp (q * a) q)) by ring]
    rw [roundHalfEven_exact hq (Dvd.intro _ rfl)]
    exact Nat.mul_div_cancel_left _ hq
  have hC : float53C (q * a) q = 52 - floatExp (q * a) q := by
    unfold float53C
    rw [if_pos (by omega)]
  unfold pyFmt0
  rw [hM, hC]
  rw [roundHalfEven_exact (by positivity) ⟨a, by ring⟩]
  rw [Nat.mul_div_cancel _ (by positivity)]
  rw [Nat.mul_div_cancel_left a hq]

/-- C6: format_number prints values below 1000 as their decimal digits;
from 1000 up to the million scale it prints the quotient by 1000 with no
decimal and suffix k when evenly divisible, and otherwise the quotient to
one decimal place (the tenths value approximating n/1000 within 1/10)
with suffix k; analogously with suffix M at the million scale; with the
listed concrete values. -/
theorem format_number_spec :
    (∀ n : ℕ, n < 1000 → format_number n = Nat.repr n) ∧
    (∀ n : ℕ, 1000 ≤ n → n < 1000000 →
      (n % 1000 = 0 → format_number n = Nat.repr (n / 1000) ++ "k") ∧
      (n % 1000 ≠ 0 → format_number n = Nat.repr (tenths n 1000 / 10) ++ "." ++
          Nat.repr (tenths n 1000 % 10) ++ "k" ∧
        |(tenths n 1000 : ℚ) / 10 - (n : ℚ) / 1000| ≤ 1 / 10)) ∧
    (∀ n : ℕ, 1000000 ≤ n → n < 1000000000 →
      (n % 1000000 = 0 → format_number n = Nat.repr (n / 1000000) ++ "M") ∧
      (n % 1000000 ≠ 0 → format_number n = Nat.repr (tenths n 1000000 / 10) ++ "." ++
          Nat.repr (tenths n 1000000 % 10) ++ "M" ∧
        |(tenths n 1000000 : ℚ) / 10 - (n : ℚ) / 1000000| ≤ 1 / 10)) ∧
    format_number 0 = "0" ∧ format_number 999 = "999" ∧
    format_number 1000 = "1k" ∧ format_number 1500 = "1.5k" ∧
    format_number 1000000 = "1M" := by
  refine ⟨?_, ?_, ?_, by decide, by decide, by decide, by decide, by decide⟩
  · intro n hn
    unfold format_number
    rw [if_neg (by omega), if_neg (by omega)]
  · intro n h1 h2
    constructor
    · intro hdvd
      unfold format_number
      rw [if_neg (by omega), if_pos h1, if_pos hdvd]
      rw [pyFmt0_exact (by norm_num) (Nat.dvd_of_mod_eq_zero hdvd) h1 (by omega)]
    · intro hnd
      unfold format_number
      rw [if_neg (by omega), if_pos h1, if_neg hnd]
      exact ⟨rfl, tenths_close (by norm_num) h1 (by omega)⟩
  · intro n h1 h2
    constructor
    · intro hdvd
      unfold format_number
      rw [if_pos h1, if_pos hdvd]
      rw [pyFmt0_exact (by norm_num) (Nat.dvd_of_mod_eq_zero hdvd) h1 (by omega)]
    · intro hnd
      unfold format_number
      rw [if_pos h1, if_neg hnd]
      exact ⟨rfl, tenths_close (by norm_num) h1 (by omega)⟩

/-- Witness for C6 at the concrete inputs 7, 2000, 1234 and 2000000. -/
theorem format_number_spec_witness :
    format_number 7 = Nat.repr 7 ∧
    format_number 2000 = Nat.repr (2000 / 1000) ++ "k" ∧
    (format_number 1234 = Nat.repr (tenths 1234 1000 / 10) ++ "." ++
        Nat.repr (tenths 1234 1000 % 10) ++ "k" ∧
      |(tenths 1234 1000 : ℚ) / 10 - (1234 : ℚ) / 1000| ≤ 1 / 10) ∧
    format_number 2000000 = Nat.repr (2000000 / 1000000) ++ "M" :=
  ⟨format_number_spec.1 7 (by norm_num),
   (format_number_spec.2.1 2000 (by norm_num) (by norm_num)).1 (by norm_num),
   (format_number_spec.2.1 1234 (by norm_num) (by norm_num)).2 (by norm_num),
   (format_number_spec.2.2.1 2000000 (by norm_num) (by norm_num)).1 (by norm_num)⟩

/-- Fixed output paths (loc_graph.py lines 13-16). -/
def OUTPUT_SVG_FALLBACK : String := ".github/loc-history.svg"

def OUTPUT_SVG_LIGHT : String := ".github/loc-history-light.svg"

def OUTPUT_SVG_DARK : String := ".github/loc-history-dark.svg"

def OUTPUT_JSON : String := ".github/loc_history.json"

/-- Observable actions of a run of main: checkouts of the shared working
tree and file writes.  A cache write records the exact history list
serialized to the cache file; chart writes record the target path (the
fallback copy of line 213 is recorded as a chart write to the fallback
path). -/
inductive Event where
  | checkout (r : String)
  | checkoutFailed (r : String)
  | writeCache (hist : List HistoryEntry)
  | writeChart (path : String)
deriving DecidableEq

def Event.isWrite : Event → Bool
  | Event.writeCache _ => true
  | Event.writeChart _ => true
  | _ => false

/-- The failures that abort the run: a commit checkout or the cloc
invocation exiting nonzero inside the loop (subprocess raises
CalledProcessError), or the restoring checkout in the finally block
failing. -/
inductive StepError where
  | checkoutFail (sha : String)
  | clocFail (sha : String)
  | restoreFail
deriving DecidableEq

/-- Model of the external world main interacts with: the starting ref
reported by `git rev-parse --abbrev-ref HEAD`, the commit list from
get_commits (oldest first, each with its %cI timestamp string), the cache
loaded by load_history, which checkouts succeed, what cloc_code_lines
returns at each commit (`none` models a nonzero exit or crash), whether
the two theme charts already exist, and an abstract interpretation of
timestamp strings as instants (datetime.fromisoformat), used only as the
sort key. -/
structure Env where
  current_ref : String
  commits : List (String × String)
  hist0 : List HistoryEntry
  checkout_ok : String → Bool
  cloc : String → Option ℕ
  light_exists : Bool
  dark_exists : Bool
  dateVal : String → ℤ

structure LoopOut where
  trace : List Event
  ref : String
  hist : List HistoryEntry
  updated : Bool
  err : Option StepError

/-- The measurement loop of main (lines 193-200): each commit whose sha
is in the done set is skipped; otherwise the commit is checked out, cloc
runs, and the entry is appended with updated = True.  A failing checkout
or cloc aborts the loop with the corresponding error; a failed checkout
leaves the previously checked-out ref in place, a cloc failure happens
after the checkout succeeded. -/
def loopGo (env : Env) (done : List String) :
    List (String × String) → String → List HistoryEntry → Bool → List Event → LoopOut
  | [], ref, hist, updated, tr => ⟨tr, ref, hist, updated, none⟩
  | (sha, date) :: rest, ref, hist, updated, tr =>
    if sha ∈ done then loopGo env done rest ref hist updated tr
    else if env.checkout_ok sha then
      match env.cloc sha with
      | some loc =>
          loopGo env done rest sha (hist ++ [⟨sha, date, loc⟩]) true
            (tr ++ [Event.checkout sha])
      | none => ⟨tr ++ [Event.checkout sha], sha, hist, updated,
          some (StepError.clocFail sha)⟩
    else ⟨tr ++ [Event.checkoutFailed sha], ref, hist, updated,
      some (StepError.checkoutFail sha)⟩

/-- The loop as started by main: the done set is the sha set of the
loaded history (line 189), starting on the current ref with the loaded
history and updated = False. -/
def loopResult (env : Env) : LoopOut :=
  loopGo env (env.hist0.map HistoryEntry.sha) env.commits env.current_ref env.hist0 false []

/-- The in-memory sort of the history by parsed timestamp (line 204);
the list.sort of Python and mergeSort are both stable. -/
def sortByDate (env : Env) (hist : List HistoryEntry) : List HistoryEntry :=
  hist.mergeSort (fun a b => decide (env.dateVal a.date ≤ env.dateVal b.date))

structure RunOut where
  trace : List Event
  ref : String
  err : Option StepError
deriving DecidableEq

/-- Embeds main (loc_graph.py lines 185-213).  The try/finally runs the
restoring checkout of the starting ref whether the loop finished or
raised; if the loop raised, the exception then propagates and nothing
after the finally block executes, so the in-memory sort, the cache write
and the chart writes (lines 204-213) happen only on loop success, and
write only when something was appended or a theme chart is missing.  A
failing restore checkout raises out of the finally block itself, leaving
the last ref of the loop checked out. -/
def main_run (env : Env) : RunOut :=
  if env.checkout_ok env.current_ref then
    match (loopResult env).err with
    | some e => ⟨(loopResult env).trace ++ [Event.checkout env.current_ref],
        env.current_ref, some e⟩
    | none =>
      if (loopResult env).updated || !env.light_exists || !env.dark_exists then
        ⟨(loopResult env).trace ++ [Event.checkout env.current_ref] ++
          [Event.writeCache (sortByDate env (loopResult env).hist),
           Event.writeChart OUTPUT_SVG_LIGHT, Event.writeChart OUTPUT_SVG_DARK,
           Event.writeChart OUTPUT_SVG_FALLBACK],
         env.current_ref, none⟩
      else ⟨(loopResult env).trace ++ [Event.checkout env.current_ref],
        env.current_ref, none⟩
  else ⟨(loopResult env).trace ++ [Event.checkoutFailed env.current_ref],
    (loopResult env).ref, some StepError.restoreFail⟩

lemma no_writes_append {tr : List Event} {ev : Event}
    (htr : ∀ e ∈ tr, e.isWrite = false) (hev : ev.isWrite = false) :
    ∀ e ∈ tr ++ [ev], e.isWrite = false := by
  intro e he
  rcases List.mem_append.mp he with h | h
  · exact htr e h
  · rw [List.mem_singleton] at h
    subst h
    exact hev

/-- The loop trace consists only of checkout events: no writes happen
inside the loop. -/
lemma loopGo_no_writes (env : Env) (done : List String) :
    ∀ (cs : List (String × String)) ref hist updated tr,
      (∀ e ∈ tr, e.isWrite = false) →
      ∀ e ∈ (loopGo env done cs ref hist updated tr).trace, e.isWrite = false := by
  intro cs
  induction cs with
  | nil =>
    intro ref hist updated tr htr
    simpa [loopGo] using htr
  | cons c rest ih =>
    intro ref hist updated tr htr
    obtain ⟨sha, date⟩ := c
    rw [loopGo]
    split_ifs with h1 h2
    · exact ih _ _ _ _ htr
    · cases hc : env.cloc sha with
      | some loc =>
        exact ih _ _ _ _ (no_writes_append htr rfl)
      | none =>
        exact no_writes_append htr rfl
    · exact no_writes_append htr rfl

lemma loopResult_no_writes (env : Env) :
    ∀ e ∈ (loopResult env).trace, e.isWrite = false :=
  loopGo_no_writes env _ env.commits env.current_ref env.hist0 false []
    (by intro e he; simp at he)

/-- C1: whether the measurement loop completes or aborts at some commit,
main executes the restoring checkout of the starting ref — after which
the checked-out ref equals the ref active before the run — and the trace
places that restore after the loop events (none of which is a write) and
before any file write. -/
theorem restore_invariant :
    ∀ env : Env, env.checkout_ok env.current_ref = true →
      (main_run env).ref = env.current_ref ∧
      ∃ post, (main_run env).trace =
          (loopResult env).trace ++ Event.checkout env.current_ref :: post ∧
        ∀ e ∈ (loopResult env).trace, e.isWrite = false := by
  intro env hok
  unfold main_run
  rw [if_pos hok]
  cases herr : (loopResult env).err with
  | some e =>
    exact ⟨rfl, [], by simp, loopResult_no_writes env⟩
  | none =>
    by_cases hup : ((loopResult env).updated || !env.light_exists || !env.dark_exists) = true
    · rw [if_pos hup]
      refine ⟨rfl, [Event.writeCache (sortByDate env (loopResult env).hist),
        Event.writeChart OUTPUT_SVG_LIGHT, Event.writeChart OUTPUT_SVG_DARK,
        Event.writeChart OUTPUT_SVG_FALLBACK], by simp, loopResult_no_writes env⟩
    · rw [if_neg hup]
      exact ⟨rfl, [], by simp, loopResult_no_writes env⟩

/-- If every commit sha is already in the done set, the loop does
nothing at all. -/
lemma loopGo_all_cached (env : Env) (done : List String) :
    ∀ (cs : List (String × String)) ref hist updated tr,
      (∀ p ∈ cs, p.1 ∈ done) →
      loopGo env done cs ref hist updated tr = ⟨tr, ref, hist, updated, none⟩ := by
  intro cs
  induction cs with
  | nil =>
    intro ref hist updated tr hall
    rfl
  | cons c rest ih =>
    intro ref hist updated tr hall
    obtain ⟨sha, date⟩ := c
    rw [loopGo]
    rw [if_pos (hall (sha, date) (by simp))]
    exact ih _ _ _ _ (fun p hp => hall p (by simp [hp]))

/-- C7: when every commit sha returned by the enumerator is already in
the loaded history, the run appends no entry (the in-memory history stays
exactly the loaded one, so no duplicate sha can appear) and the loop
succeeds without updating; when additionally both theme charts exist and
the restore succeeds, the run performs no write at all — its whole trace
is the single restoring checkout — so the cache file is untouched and a
second run with no new commits leaves it byte-identical. -/
theorem cache_idempotent :
    ∀ env : Env,
      (∀ p ∈ env.commits, p.1 ∈ env.hist0.map HistoryEntry.sha) →
      ((loopResult env).hist = env.hist0 ∧ (loopResult env).err = none ∧
        (loopResult env).updated = false) ∧
      (env.light_exists = true → env.dark_exists = true →
        env.checkout_ok env.current_ref = true →
        main_run env = ⟨[Event.checkout env.current_ref], env.current_ref, none⟩) := by
  intro env hall
  have hloop : loopResult env = ⟨[], env.current_ref, env.hist0, false, none⟩ :=
    loopGo_all_cached env _ env.commits env.current_ref env.hist0 false [] hall
  constructor
  · rw [hloop]
    exact ⟨rfl, rfl, rfl⟩
  · intro hl hd hok
    unfold main_run
    rw [if_pos hok, hloop]
    simp [hl, hd]

/-- A concrete environment in which the first commit is measured
successfully and the cloc invocation at the second commit fails. -/
def envPartial : Env :=
  { current_ref := "main"
    commits := [("a", "2024-01-01T00:00:00+00:00"), ("b", "2024-01-02T00:00:00+00:00")]
    hist0 := []
    checkout_ok := fun _ => true
    cloc := fun s => if s = "a" then some 5 else none
    light_exists := true
    dark_exists := true
    dateVal := fun _ => 0 }

/-- C5 counterexample: in envPartial the loop appends the entry of the
first commit in memory before failing at the second commit, yet the run performs
no cache write at all: the exception propagates after the restoring
checkout feedback and save_history never executes, so the persisted cache
file keeps its pre-run contents rather than the partial progress the
claim asserts it contains. -/
theorem partial_progress_not_persisted :
    (loopResult envPartial).hist = [⟨"a", "2024-01-01T00:00:00+00:00", 5⟩] ∧
    (main_run envPartial).err = some (StepError.clocFail "b") ∧
    Event.writeCache [⟨"a", "2024-01-01T00:00:00+00:00", 5⟩] ∉ (main_run envPartial).trace := by
  refine ⟨by decide, by decide, by decide⟩

/-- C5 amended: the cache file is written only after the restore step,
and on a mid-loop failure it is not written at all — partial progress
appended to the in-memory history is discarded, and the persisted cache
contains whatever had been measured before the run. -/
theorem cache_write_after_restore :
    ∀ env : Env,
      ((main_run env).err ≠ none →
        ∀ h : List HistoryEntry, Event.writeCache h ∉ (main_run env).trace) ∧
      (∀ h : List HistoryEntry, Event.writeCache h ∈ (main_run env).trace →
        ∃ post, (main_run env).trace =
            (loopResult env).trace ++ Event.checkout env.current_ref :: post ∧
          Event.writeCache h ∈ post ∧
          ∀ e ∈ (loopResult env).trace, e.isWrite = false) := by
  intro env
  have hnw := loopResult_no_writes env
  unfold main_run
  by_cases hok : env.checkout_ok env.current_ref = true
  · rw [if_pos hok]
    cases herr : (loopResult env).err with
    | some e =>
      constructor
      · intro _ h hmem
        simp only [List.mem_append, List.mem_singleton] at hmem
        rcases hmem with hmem | hmem
        · exact absurd (hnw _ hmem) (by simp [Event.isWrite])
        · exact Event.noConfusion hmem
      · intro h hmem
        simp only [List.mem_append, List.mem_singleton] at hmem
        rcases hmem with hmem | hmem
        · exact absurd (hnw _ hmem) (by simp [Event.isWrite])
        · exact Event.noConfusion hmem
    | none =>
      by_cases hup : ((loopResult env).updated || !env.light_exists || !env.dark_exists) = true
      · rw [if_pos hup]
        constructor
        · intro hne
          simp at hne
        · intro h hmem
          refine ⟨[Event.writeCache (sortByDate env (loopResult env).hist),
            Event.writeChart OUTPUT_SVG_LIGHT, Event.writeChart OUTPUT_SVG_DARK,
            Event.writeChart OUTPUT_SVG_FALLBACK], by simp, ?_, hnw⟩
          simp only [List.append_assoc, List.mem_append, List.mem_singleton] at hmem
          rcases hmem with hmem | hmem
          · exact absurd (hnw _ hmem) (by simp [Event.isWrite])
          · simpa using hmem
      · rw [if_neg hup]
        constructor
        · intro hne
          simp at hne
        · intro h hmem
          simp only [List.mem_append, List.mem_singleton] at hmem
          rcases hmem with hmem | hmem
          · exact absurd (hnw _ hmem) (by simp [Event.isWrite])
          · exact Event.noConfusion hmem
  · rw [if_neg hok]
    constructor
    · intro _ h hmem
      simp only [List.mem_append, List.mem_singleton] at hmem
      rcases hmem with hmem | hmem
      · exact absurd (hnw _ hmem) (by simp [Event.isWrite])
      · exact Event.noConfusion hmem
    · intro h hmem
      simp only [List.mem_append, List.mem_singleton] at hmem
      rcases hmem with hmem | hmem
      · exact absurd (hnw _ hmem) (by simp [Event.isWrite])
      · exact Event.noConfusion hmem

/-- Witness for the amended C5 at the concrete failing environment. -/
theorem cache_write_after_restore_witness :
    Event.writeCache [] ∉ (main_run envPartial).trace :=
  (cache_write_after_restore envPartial).1 (by decide) []

/-- Witness for C1 at the concrete failing environment (the restore
checkout succeeds there). -/
theorem restore_invariant_witness :
    (main_run envPartial).ref = envPartial.current_ref ∧
    ∃ post, (main_run envPartial).trace =
        (loopResult envPartial).trace ++ Event.checkout envPartial.current_ref :: post ∧
      ∀ e ∈ (loopResult envPartial).trace, e.isWrite = false :=
  restore_invariant envPartial rfl

/-- A concrete environment whose single commit is already cached and
whose charts both exist. -/
def envCached : Env :=
  { current_ref := "main"
    commits := [("a", "2024-01-01T00:00:00+00:00")]
    hist0 := [⟨"a", "2024-01-01T00:00:00+00:00", 5⟩]
    checkout_ok := fun _ => true
    cloc := fun _ => some 5
    light_exists := true
    dark_exists := true
    dateVal := fun _ => 0 }

/-- Witness for C7 at the concrete fully-cached environment. -/
theorem cache_idempotent_witness :
    (loopResult envCached).hist = envCached.hist0 ∧
    main_run envCached = ⟨[Event.checkout envCached.current_ref], envCached.current_ref, none⟩ :=
  ⟨(cache_idempotent envCached (by decide)).1.1,
   (cache_idempotent envCached (by decide)).2 rfl rfl rfl⟩

/-- The placeholder document of generate_svg (line 95), with the Python
f-string integer interpolations of w and h rendered by Nat.repr. -/
def placeholder_svg (w h : ℕ) : String :=
  "<svg xmlns=\"http://www.w3.org/2000/svg\" width=\"" ++ Nat.repr w ++
  "\" height=\"" ++ Nat.repr h ++
  "\"><text x=\"12\" y=\"24\">No data</text></svg>"

/-- Embeds the empty-input guard of generate_svg (lines 94-97): on an
empty point list the function writes exactly the placeholder document to
the output path and returns immediately, before any other processing or
write; `none` marks that control continues into the chart body, whose
numeric components are modelled by chartMax, calcYmax, drawLabel, sx and
sy above.  The theme argument is accepted but, as in the source, not
consulted by the guard. -/
def generate_svg_empty_write (points : List HistoryEntry) (theme : String)
    (w h : ℕ) : Option String :=
  if points = [] then some (placeholder_svg w h) else none

/-- C9: on the empty point list, for every theme and dimensions, the
renderer takes the guard branch and emits exactly the placeholder
document, a well-formed minimal SVG opening with an svg tag and closing
with the matching end tag, writing nothing else. -/
theorem empty_render_placeholder :
    ∀ (theme : String) (w h : ℕ),
      generate_svg_empty_write [] theme w h = some (placeholder_svg w h) ∧
      "<svg".data <+: (placeholder_svg w h).data ∧
      "</svg>".data <:+ (placeholder_svg w h).data := by
  intro theme w h
  refine ⟨rfl, ?_, ?_⟩
  · unfold placeholder_svg
    rw [String.data_append, String.data_append, String.data_append, String.data_append]
    have h1 : "<svg".data <+:
        "<svg xmlns=\"http://www.w3.org/2000/svg\" width=\"".data := by decide
    exact h1.trans ((((List.prefix_append _ _).trans
      (List.prefix_append _ _)).trans (List.prefix_append _ _)).trans
      (List.prefix_append _ _))
  · unfold placeholder_svg
    rw [String.data_append, String.data_append, String.data_append, String.data_append]
    have h1 : "</svg>".data <:+
        "\"><text x=\"12\" y=\"24\">No data</text></svg>".data := by decide
    exact h1.trans (List.suffix_append _ _)

/-- Witness for the amended C8 at the concrete point count 25,
exercising the 15-bound for n ≥ 20. -/
theorem label_count_bound_witness :
    labelCount 25 ≤ 19 ∧ labelCount 25 ≤ 15 :=
  ⟨(label_count_bound.1 25).1, (label_count_bound.1 25).2.1 (by norm_num)⟩

/-- Witness for C9 at the default theme and dimensions. -/
theorem empty_render_placeholder_witness :
    generate_svg_empty_write [] "light" 900 260 = some (placeholder_svg 900 260) :=
  (empty_render_placeholder "light" 900 260).1
